import Mathlib

/-
Verification of the sentence-boundary detection and rewrap pipeline of the
mdslw markdown line wrapper.

The Rust sources are embedded shallowly:
  - a Rust String or str slice becomes a Lean List Char (the concrete inputs
    exercised below are ASCII, where character positions and byte positions
    coincide);
  - HashSet values that are only iterated or queried for membership become
    Lean lists;
  - the HashMap from byte index to whitespace character built by
    whitespace_indices becomes a function from Nat to Option Char;
  - the Unicode tables behind char.is_alphanumeric and char.to_lowercase are
    passed as explicit parameters (isAlnum and lowerChar) wherever the source
    uses them: theorems either hold for every choice of these parameters or
    instantiate them with functions that agree with the Rust ones on the
    ASCII range, which covers all concrete inputs appearing here.
-/

namespace Mdslw

/-- The Unicode White_Space property, exactly the set of code points for which
the Rust function char.is_whitespace returns true. -/
def rustIsWhitespace (c : Char) : Bool :=
  let n := c.toNat
  n == 0x20 || (0x09 ≤ n && n ≤ 0x0D) || n == 0x85 || n == 0xA0 ||
    n == 0x1680 || (0x2000 ≤ n && n ≤ 0x200A) || n == 0x2028 ||
    n == 0x2029 || n == 0x202F || n == 0x205F || n == 0x3000

/-- Rust char.to_lowercase restricted to the ASCII range (as a one-character
expansion). On ASCII code points this agrees with full Unicode lowercasing;
it is only ever applied to ASCII text in the concrete statements below. -/
def asciiLower (c : Char) : List Char :=
  [if c.toNat ≥ 0x41 && c.toNat ≤ 0x5A then Char.ofNat (c.toNat + 0x20) else c]

/-- Rust char.is_alphanumeric restricted to the ASCII range. On ASCII code
points this agrees with the full Unicode definition; it is only ever applied
to ASCII text in the concrete statements below. -/
def asciiAlnum (c : Char) : Bool :=
  (c.toNat ≥ 0x41 && c.toNat ≤ 0x5A) || (c.toNat ≥ 0x61 && c.toNat ≤ 0x7A) ||
    (c.toNat ≥ 0x30 && c.toNat ≤ 0x39)

/-- UTF-8 byte length of a string modelled as a character list; Rust
String.len counts bytes. -/
def byteLen (w : List Char) : Nat :=
  (w.map Char.utf8Size).sum

/-- Splitting helper shared by the models of Rust str.split_whitespace and of
the spec-described WhitespaceDetector.split_whitespace: maximal runs of
characters not satisfying p, in order, every run non-empty. -/
def splitWsAux (p : Char → Bool) (cur : List Char) : List Char → List (List Char)
  | [] => if cur.isEmpty then [] else [cur.reverse]
  | c :: cs =>
    if p c then
      if cur.isEmpty then splitWsAux p [] cs
      else cur.reverse :: splitWsAux p [] cs
    else splitWsAux p (c :: cur) cs

/-- Rust str.split_whitespace: split on Unicode whitespace, no empty tokens. -/
def rustSplitWhitespace (s : List Char) : List (List Char) :=
  splitWsAux rustIsWhitespace [] s

/-- Rust str.to_lowercase, parameterised by the per-character lowercase
expansion (the final-sigma context rule of the real function is irrelevant to
every input considered here). -/
def strLower (lowerChar : Char → List Char) (s : List Char) : List Char :=
  (s.map lowerChar).join

/- ------------------------------------------------------------------ -/
/- detect.rs: WhitespaceDetector                                       -/
/- ------------------------------------------------------------------ -/

/-- detect.rs WhitespaceDetector: the field nbsp lists the characters
excluded from whitespace treatment. -/
structure WhitespaceDetector where
  nbsp : List Char
deriving Repr, DecidableEq

/-- The three non-breaking-space code points stored by
WhitespaceDetector::new: U+00A0 (no-break space), U+202F (narrow no-break
space) and U+FEFF (zero width no-break space), the three characters of the
Rust string literal in detect.rs. -/
def nbspChars : List Char := ['\u00A0', '\u202F', '\uFEFF']

/-- detect.rs WhitespaceDetector::new. -/
def WhitespaceDetector.new (keep_non_breaking_spaces : Bool) : WhitespaceDetector :=
  ⟨if keep_non_breaking_spaces then nbspChars else []⟩

/-- detect.rs WhitespaceDetector::default (derived Default: empty nbsp). -/
def WhitespaceDetector.default : WhitespaceDetector := ⟨[]⟩

/-- detect.rs WhitespaceDetector::is_whitespace. -/
def WhitespaceDetector.is_whitespace (d : WhitespaceDetector) (c : Char) : Bool :=
  rustIsWhitespace c && !(d.nbsp.contains c)

/-- Modelled from the spec: WhitespaceDetector::split_whitespace is called by
wrap.rs but absent from the detect.rs in src; section 4.1 specifies it as
splitting into non-empty substrings on this whitespace definition. -/
def WhitespaceDetector.split_whitespace (d : WhitespaceDetector) (s : List Char) :
    List (List Char) :=
  splitWsAux d.is_whitespace [] s

/- ------------------------------------------------------------------ -/
/- detect.rs: BreakCfg, keep.rs: KeepWords                             -/
/- ------------------------------------------------------------------ -/

/-- detect.rs BreakCfg. -/
structure BreakCfg where
  breaking_multiple_markers : Bool
  breaking_start_marker : Bool
  breaking_nbsp : Bool
deriving Repr, DecidableEq

/-- keep.rs KeepWords: the stored suppression entries and the case flag. -/
structure KeepWords where
  data : List (List Char × Nat)
  preserve_case : Bool

/-- keep.rs KeepWords::new. Each surviving word is stored together with its
byte length minus one (Rust el.len() counts bytes). -/
def KeepWords.new (lowerChar : Char → List Char) (words ignores : List Char)
    (preserve_case : Bool) : KeepWords :=
  let cased_words := if preserve_case then words else strLower lowerChar words
  let cased_ignores := if preserve_case then ignores else strLower lowerChar ignores
  let ig := rustSplitWhitespace cased_ignores
  { preserve_case
    data := ((rustSplitWhitespace cased_words).filter (fun el => !ig.contains el)).map
      (fun el => (el, byteLen el - 1)) }

/-- The per-entry match test inside keep.rs KeepWords::ends_with_word: the
word-boundary check followed by the case-folded positional comparison of the
trailing slice against the stored word. -/
def keepWordMatches (isAlnum : Char → Bool) (lowerChar : Char → List Char)
    (preserve_case : Bool) (text : List Char) (idx : Nat) (e : List Char × Nat) : Bool :=
  (idx == e.2 || !(isAlnum (text.getD (idx - e.2 - 1) ' '))) &&
    (((((text.drop (idx - e.2)).take (e.2 + 1)).map
        (fun el => if preserve_case then [el] else lowerChar el)).join.zip e.1).all
      (fun p => p.1 == p.2))

/-- keep.rs KeepWords::ends_with_word. -/
def KeepWords.ends_with_word (isAlnum : Char → Bool) (lowerChar : Char → List Char)
    (k : KeepWords) (text : List Char) (idx : Nat) : Bool :=
  if idx < text.length then
    (k.data.filter (fun e => e.2 ≤ idx)).any
      (keepWordMatches isAlnum lowerChar k.preserve_case text idx)
  else false

/- ------------------------------------------------------------------ -/
/- detect.rs: BreakDetector                                            -/
/- ------------------------------------------------------------------ -/

/-- detect.rs BreakDetector. -/
structure BreakDetector where
  whitespace : WhitespaceDetector
  keep_words : List (List Char × Nat)
  keep_words_preserve_case : Bool
  end_markers : List Char
  break_multiple_markers : Bool
  break_start_markers : Bool

/-- detect.rs BreakDetector::new. The keep-word construction is the same as
in keep.rs KeepWords::new. -/
def BreakDetector.new (lowerChar : Char → List Char) (keep_words keep_word_ignores : List Char)
    (keep_words_preserve_case : Bool) (end_markers : List Char) (break_cfg : BreakCfg) :
    BreakDetector :=
  { whitespace := WhitespaceDetector.new (!break_cfg.breaking_nbsp)
    keep_words := (KeepWords.new lowerChar keep_words keep_word_ignores
      keep_words_preserve_case).data
    keep_words_preserve_case
    end_markers
    break_multiple_markers := break_cfg.breaking_multiple_markers
    break_start_markers := break_cfg.breaking_start_marker }

/-- detect.rs BreakDetector::ends_with_keep_word. The body in detect.rs is a
verbatim copy of keep.rs KeepWords::ends_with_word, so the embedding shares
that definition. -/
def BreakDetector.ends_with_keep_word (isAlnum : Char → Bool)
    (lowerChar : Char → List Char) (d : BreakDetector) (text : List Char) (idx : Nat) : Bool :=
  KeepWords.ends_with_word isAlnum lowerChar
    ⟨d.keep_words, d.keep_words_preserve_case⟩ text idx

/-- detect.rs free function is_marker. -/
def is_marker (ch : Option Char) (markers : List Char) : Bool :=
  (ch.map (fun el => markers.contains el)).getD false

/-- detect.rs free function is_start. -/
def is_start (ch : Option Char) : Bool :=
  ch == none || ch == some '\n'

/-- detect.rs free function is_whitespace over Option Char. It calls the
plain Rust char.is_whitespace, not the WhitespaceDetector. -/
def opt_is_whitespace (ch : Option Char) : Bool :=
  (ch.map (fun el => rustIsWhitespace el)).getD false

/-- detect.rs BreakDetector::is_breaking_marker. -/
def BreakDetector.is_breaking_marker (d : BreakDetector) (prev : Option Char)
    (ch : Char) (next : Option Char) : Bool :=
  d.end_markers.contains ch &&
    opt_is_whitespace next &&
    (d.break_multiple_markers || !is_marker prev d.end_markers) &&
    (d.break_start_markers || !is_start prev)

/- ------------------------------------------------------------------ -/
/- linebreak.rs                                                        -/
/- ------------------------------------------------------------------ -/

/-- linebreak.rs enum Char (renamed: Char is taken in Lean): a character
position to skip or to split the text at. -/
inductive BreakChar where
  | skip (idx : Nat)
  | split (idx : Nat)
deriving Repr, DecidableEq, BEq

/-- The loop body of linebreak.rs merge_all_whitespace, with the mutable flag
last_was_whitespace made an explicit argument. -/
def mergeAllWhitespaceAux (d : WhitespaceDetector) : Bool → List Char → List Char
  | _, [] => []
  | last, c :: cs =>
    if d.is_whitespace c then
      if last then mergeAllWhitespaceAux d true cs
      else ' ' :: mergeAllWhitespaceAux d true cs
    else c :: mergeAllWhitespaceAux d false cs

/-- linebreak.rs merge_all_whitespace: replace every run of consecutive
whitespace by a single space. -/
def merge_all_whitespace (text : List Char) (d : WhitespaceDetector) : List Char :=
  mergeAllWhitespaceAux d false text

/-- linebreak.rs find_sentence_ends. The HashSet result is modelled as the
list of produced elements; only membership is ever queried. -/
def find_sentence_ends (isAlnum : Char → Bool) (lowerChar : Char → List Char)
    (text : List Char) (d : BreakDetector) : List BreakChar :=
  let as_chars := text
  (as_chars.enum.filterMap (fun p =>
    let idx := p.1
    let next := as_chars.get? (idx + 1)
    let prev := if idx == 0 then none else as_chars.get? (idx - 1)
    if d.is_breaking_marker prev p.2 next &&
        !(d.ends_with_keep_word isAlnum lowerChar as_chars idx) then
      some [BreakChar.skip (idx + 1), BreakChar.split (idx + 2)]
    else none)).join

/-- linebreak.rs insert_linebreaks_between_sentences. -/
def insert_linebreaks_between_sentences (isAlnum : Char → Bool)
    (lowerChar : Char → List Char) (text indent : List Char) (d : BreakDetector) :
    List Char :=
  let merged := merge_all_whitespace text d.whitespace
  let sentence_ends := find_sentence_ends isAlnum lowerChar merged d
  (merged.enum.filterMap (fun p =>
    if sentence_ends.contains (BreakChar.skip p.1) then none
    else if sentence_ends.contains (BreakChar.split p.1) then
      some ('\n' :: (indent ++ [p.2]))
    else some [p.2])).join

/-- Modelled from the spec: wrap.rs calls
linebreak.rs insert_linebreaks_after_sentence_ends, which is absent from the
linebreak.rs in src (that file provides insert_linebreaks_between_sentences,
which additionally inserts an indent after each inserted linebreak). Section
4.6 specifies the call used by wrap.rs as pure break insertion, i.e. the same
computation with an empty indent. -/
def insert_linebreaks_after_sentence_ends (isAlnum : Char → Bool)
    (lowerChar : Char → List Char) (text : List Char) (d : BreakDetector) : List Char :=
  insert_linebreaks_between_sentences isAlnum lowerChar text [] d

/- ------------------------------------------------------------------ -/
/- indent.rs and wrap.rs                                               -/
/- ------------------------------------------------------------------ -/

/-- indent.rs spaces: a string of num spaces. -/
def spaces (num : Nat) : List Char :=
  List.replicate num ' '

/-- Modelled from the spec: wrap.rs and parse.rs import
indent.rs build_indent, which is absent from the indent.rs in src (that file
provides the function spaces above). Sections 3 and 4.7 describe the
continuation indent as n spaces. -/
def build_indent (num : Nat) : List Char :=
  spaces num

/-- wrap.rs wrap_long_line_and_collapse_inline_whitespace. The for loop over
the remaining words becomes a fold whose state is the triple of finished
lines, the current line, and the tracked current line length. -/
def wrap_long_line_and_collapse_inline_whitespace (sentence : List Char)
    (sentence_idx : Nat) (max_width : Option Nat) (indent : List Char)
    (d : WhitespaceDetector) : List (List Char) :=
  let words := (d.split_whitespace sentence).filter (fun el => !el.isEmpty)
  let first : List Char × Nat :=
    match words with
    | [] => ([], 0)
    | first_word :: _ =>
      if sentence_idx == 0 then (first_word, indent.length)
      else (indent ++ first_word, 0)
  let width := max_width.getD 0
  let st := (words.drop 1).foldl
    (fun (st : List (List Char) × List Char × Nat) word =>
      let chars := word.length
      if width == 0 || st.2.2 + 1 + chars ≤ width then
        (st.1, st.2.1 ++ ' ' :: word, st.2.2 + chars + 1)
      else
        (st.1 ++ [st.2.1], indent ++ word, (indent ++ word).length))
    ([], first.1, first.1.length + first.2)
  st.1 ++ [st.2.1]

/- ------------------------------------------------------------------ -/
/- parse.rs: CharRange, ranges.rs: TextRange                           -/
/- ------------------------------------------------------------------ -/

/-- parse.rs CharRange, a half-open interval of positions; the Rust field
named end is called stop here because end is a Lean keyword. -/
structure CharRange where
  start : Nat
  stop : Nat
deriving Repr, DecidableEq

/-- Rust Range::len (0 when the bounds are reversed, as for usize ranges). -/
def CharRange.len (r : CharRange) : Nat :=
  r.stop - r.start

/-- Rust Range::is_empty. -/
def CharRange.is_empty (r : CharRange) : Bool :=
  !(decide (r.start < r.stop))

/-- Rust Range::contains for usize ranges. -/
def CharRange.containsPos (r : CharRange) (p : Nat) : Bool :=
  decide (r.start ≤ p) && decide (p < r.stop)

/-- ranges.rs TextRange. -/
structure TextRange where
  indent_spaces : Nat
  range : CharRange
  verbatim : Bool
deriving Repr, DecidableEq

/-- Rust str.split_inclusive on the linebreak character: pieces end with the
separator, a trailing piece without separator is kept, empty input yields no
pieces. -/
def splitInclusiveAux (cur : List Char) : List Char → List (List Char)
  | [] => if cur.isEmpty then [] else [cur.reverse]
  | c :: cs =>
    if c == '\n' then (c :: cur).reverse :: splitInclusiveAux [] cs
    else splitInclusiveAux (c :: cur) cs

/-- The running-offset map inside ranges.rs line_ranges. -/
def lineRangesAux (start : Nat) : List (List Char) → List CharRange
  | [] => []
  | piece :: rest =>
    ⟨start, start + piece.length⟩ :: lineRangesAux (start + piece.length) rest

/-- ranges.rs line_ranges: the character range of every line of the document. -/
def line_ranges (text : List Char) : List CharRange :=
  lineRangesAux 0 (splitInclusiveAux [] text)

/-- ranges.rs find_line_start. -/
def find_line_start (point : Nat) (lines : List CharRange) : Option Nat :=
  (lines.find? (fun el => el.containsPos point)).map CharRange.start

/-- The flat_map body of ranges.rs fill_markdown_ranges, with the mutable
last_end made an explicit argument; the caller appends the end-of-document
sentinel range. -/
def fillLoop (lines : List CharRange) (last_end : Nat) : List CharRange → List TextRange
  | [] => []
  | el :: rest =>
    { verbatim := true
      indent_spaces := last_end - ((find_line_start last_end lines).getD last_end)
      range := ⟨last_end, el.start⟩ } ::
    { verbatim := false
      indent_spaces := el.start - ((find_line_start el.start lines).getD el.start)
      range := el } ::
    fillLoop lines el.stop rest

/-- ranges.rs fill_markdown_ranges. -/
def fill_markdown_ranges (wrap_ranges : List CharRange) (text : List Char) :
    List TextRange :=
  (fillLoop (line_ranges text) 0
      (wrap_ranges ++ [⟨text.length, text.length⟩])).filter
    (fun el => !el.range.is_empty)

/- ------------------------------------------------------------------ -/
/- wrap.rs: add_linebreaks_and_wrap                                    -/
/- ------------------------------------------------------------------ -/

/-- The Rust slice text[range] as a sublist. -/
def sliceOf (text : List Char) (r : CharRange) : List Char :=
  (text.drop r.start).take (r.stop - r.start)

/-- Rust str.trim_end: drop trailing Unicode whitespace. -/
def trimEnd (s : List Char) : List Char :=
  (s.reverse.dropWhile rustIsWhitespace).reverse

/-- wrap.rs add_linebreaks_and_wrap. The WrapType enum of the current wrap.rs
is reconciled with the TextRange of the ranges.rs in src: WrapType::Indent(n)
corresponds to verbatim = false with indent_spaces = n, WrapType::Verbatim to
verbatim = true. -/
def add_linebreaks_and_wrap (isAlnum : Char → Bool) (lowerChar : Char → List Char)
    (ranges : List TextRange) (max_width : Option Nat) (d : BreakDetector)
    (text : List Char) : List Char :=
  let result := ranges.foldl
    (fun acc range =>
      if range.verbatim then acc ++ sliceOf text range.range
      else
        let indent := build_indent range.indent_spaces
        let broken := insert_linebreaks_after_sentence_ends isAlnum lowerChar
          (sliceOf text range.range) d
        let wrapped := ((broken.splitOn '\n').enum.map
          (fun p => wrap_long_line_and_collapse_inline_whitespace p.2 p.1
            max_width indent d.whitespace)).join
        acc ++ List.intercalate ['\n'] wrapped)
    []
  trimEnd result

/- ------------------------------------------------------------------ -/
/- parse.rs: merge_ranges                                              -/
/- ------------------------------------------------------------------ -/

/-- The byte positions strictly between a and b, i.e. the Rust iterator
a..b. -/
def gapPositions (a b : Nat) : List Nat :=
  List.range' a (b - a)

/-- The loop of parse.rs merge_ranges, with the running candidate next_range
made an explicit argument (the Rust loop starts with next_range = None and
installs the first range; the wrapper below handles the empty case). -/
def mergeRangesLoop (whitespaces : Nat → Option Char) (next : CharRange) :
    List CharRange → List CharRange
  | [] => [next]
  | range :: rest =>
    let gap := gapPositions next.stop range.start
    let contains_just_whitespace := gap.all (fun el => (whitespaces el).isSome)
    let at_most_one_linebreak :=
      decide ((gap.filter (fun el => whitespaces el == some '\n')).length ≤ 1)
    let is_contained := decide (next.start ≤ range.start) && decide (range.stop ≤ next.stop)
    if is_contained then mergeRangesLoop whitespaces next rest
    else if contains_just_whitespace && at_most_one_linebreak then
      mergeRangesLoop whitespaces ⟨next.start, range.stop⟩ rest
    else next :: mergeRangesLoop whitespaces range rest

/-- parse.rs merge_ranges: merge whitespace-separated ranges (keeping
paragraphs apart), then remove ranges of at most one character. -/
def merge_ranges (ranges : List CharRange) (whitespaces : Nat → Option Char) :
    List CharRange :=
  (match ranges with
    | [] => []
    | r :: rs => mergeRangesLoop whitespaces r rs).filter
    (fun el => decide (1 < el.len))

/- ------------------------------------------------------------------ -/
/- Checked variant of the keep-word query, for the safety claim        -/
/- ------------------------------------------------------------------ -/

/-- Option-valued any with the same short-circuit order as the Rust Iterator
any: none marks a panic inside the predicate. -/
def anyChecked : List α → (α → Option Bool) → Option Bool
  | [], _ => some false
  | a :: as, f =>
    match f a with
    | none => none
    | some true => some true
    | some false => anyChecked as f

/-- keepWordMatches with every slice and index operation bounds-checked:
none is returned exactly where the Rust code would panic (an out-of-bounds
index text[idx - disp - 1] or an out-of-bounds slice text[idx - disp ..=
idx]). The two conjuncts short-circuit as in Rust. -/
def keepWordMatchesChecked (isAlnum : Char → Bool) (lowerChar : Char → List Char)
    (preserve_case : Bool) (text : List Char) (idx : Nat) (e : List Char × Nat) :
    Option Bool :=
  let sliceCmp : Option Bool :=
    if idx + 1 ≤ text.length then
      some (((((text.drop (idx - e.2)).take (e.2 + 1)).map
          (fun el => if preserve_case then [el] else lowerChar el)).join.zip e.1).all
        (fun p => p.1 == p.2))
    else none
  if idx == e.2 then sliceCmp
  else
    match text.get? (idx - e.2 - 1) with
    | none => none
    | some c => if isAlnum c then some false else sliceCmp

/-- KeepWords::ends_with_word with bounds-checked indexing; none marks a
panic. -/
def ends_with_word_checked (isAlnum : Char → Bool) (lowerChar : Char → List Char)
    (k : KeepWords) (text : List Char) (idx : Nat) : Option Bool :=
  if idx < text.length then
    anyChecked (k.data.filter (fun e => e.2 ≤ idx))
      (keepWordMatchesChecked isAlnum lowerChar k.preserve_case text idx)
  else some false

/- ------------------------------------------------------------------ -/
/- Concrete configurations and claim-side predicates                   -/
/- ------------------------------------------------------------------ -/

/-- The default detector of the end-to-end example: no suppression words,
end marker the period, no multiple-marker breaks, no start-marker breaks,
non-breaking spaces preserved. -/
def detDefault : BreakDetector :=
  BreakDetector.new asciiLower [] [] false ['.'] ⟨false, false, false⟩

/-- A detector configured with the single keep word g. (and end marker the
period). -/
def detGDot : BreakDetector :=
  BreakDetector.new asciiLower ("g.".toList) [] false ['.'] ⟨false, false, false⟩

/-- The five code points that the specification claims are excluded from
whitespace treatment when non-breaking spaces are preserved: U+00A0, U+2007,
U+202F, U+2060 and U+FEFF. -/
def claimedExcludedSet : List Char :=
  ['\u00A0', '\u2007', '\u202F', '\u2060', '\uFEFF']

/-- The whitespace classification as the specification describes it for the
preserve-non-breaking-spaces configuration: Unicode whitespace and not in
the claimed five-element excluded set. -/
def claimedIsWhitespace (c : Char) : Bool :=
  rustIsWhitespace c && !(claimedExcludedSet.contains c)

/-- A list of text ranges is a chain of non-empty adjacent ranges from lo to
hi: each range starts where the previous one ended, so their union covers
every position of the interval from lo to hi exactly once, in order. -/
def covers : Nat → List TextRange → Nat → Bool
  | lo, [], hi => lo == hi
  | lo, t :: ts, hi =>
    t.range.start == lo && decide (t.range.start < t.range.stop) &&
      covers t.range.stop ts hi

/-- The precondition of the range filler: ranges are start-sorted,
non-overlapping, well-formed and within the document, expressed as a running
lower bound. -/
def sortedWithin : Nat → Nat → List CharRange → Bool
  | lo, hi, [] => decide (lo ≤ hi)
  | lo, hi, r :: rs =>
    decide (lo ≤ r.start) && decide (r.start ≤ r.stop) && sortedWithin r.stop hi rs

/- ------------------------------------------------------------------ -/
/- Theorems                                                            -/
/- ------------------------------------------------------------------ -/

/-- C1: end-to-end sentence splitting. The input text, treated as a single
wrappable range with indent 0, with a detector built from no suppression
words, end marker the period, default policy flags and unconstrained width,
comes out with the single inter-sentence space replaced by one newline and
every other character unchanged. -/
theorem c1_end_to_end_example :
    add_linebreaks_and_wrap asciiAlnum asciiLower [⟨0, ⟨0, 33⟩, false⟩] none
        detDefault ("Some text. It contains sentences.".toList)
      = "Some text.\nIt contains sentences.".toList := by
  decide

/-- C2 counterexample: with the default configuration, a non-breaking space
(U+00A0) after an end marker does permit a break, although the detector-owned
whitespace classifier excludes that character; so the claim that
is_breaking_marker consults the detector-owned WhitespaceDetector for the
next character is false: the code uses the plain Unicode whitespace test. -/
theorem c2_counterexample :
    detDefault.is_breaking_marker (some 'a') '.' (some '\u00A0') = true ∧
      detDefault.whitespace.is_whitespace '\u00A0' = false := by
  decide

/-- C2 amended: for every detector configuration and all characters,
is_breaking_marker returns true iff (1) ch is a configured end marker, (2)
next is some character that is plain Unicode whitespace (so a next of none,
the end of the document, never breaks, but a non-breaking space as next does
permit a break regardless of the preserve-non-breaking-spaces setting), (3)
if prev is an end-marker character then the allow-multiple-markers flag is
set, and (4) if prev is none or a linebreak then the allow-start-marker flag
is set. -/
theorem c2_is_breaking_marker_characterisation :
    ∀ (d : BreakDetector) (prev : Option Char) (ch : Char) (next : Option Char),
      d.is_breaking_marker prev ch next = true ↔
        (ch ∈ d.end_markers ∧
          (∃ c, next = some c ∧ rustIsWhitespace c = true) ∧
          ((∃ p, prev = some p ∧ p ∈ d.end_markers) → d.break_multiple_markers = true) ∧
          ((prev = none ∨ prev = some '\n') → d.break_start_markers = true)) := by
  intro d prev ch next
  cases prev <;> cases next <;>
    simp [BreakDetector.is_breaking_marker, is_marker, is_start, opt_is_whitespace,
      Bool.and_eq_true, Bool.or_eq_true, Bool.not_eq_true', List.contains,
      List.elem_eq_mem, decide_eq_true_eq] <;>
    tauto

/-- C5 counterexample: with the single keep word g., the suppressed-word
query on the text e.g. at the final period returns true, not false as
claimed: the word-boundary check inspects the character immediately before
the match, which is the period at index 1, and a period is not alphanumeric,
so the match is allowed. -/
theorem c5_counterexample :
    BreakDetector.ends_with_keep_word asciiAlnum asciiLower detGDot
      ("e.g.".toList) 3 = true := by
  decide

/-- C5 amended: with the single keep word g., the query on e.g. at the final
period returns true (the character before the match, a period, is not
alphanumeric, so the boundary check passes); the boundary check only blocks
matches whose preceding character is alphanumeric, as on eg. at its final
period, where the preceding character is the letter e and the query returns
false. -/
theorem c5_word_boundary :
    BreakDetector.ends_with_keep_word asciiAlnum asciiLower detGDot
        ("e.g.".toList) 3 = true ∧
      asciiAlnum '.' = false ∧
      BreakDetector.ends_with_keep_word asciiAlnum asciiLower detGDot
        ("eg.".toList) 2 = false := by
  decide

/-- C6 counterexample: U+2007 (figure space) is Unicode whitespace, is in the
five-element excluded set the claim describes, yet the detector built with
preserve-non-breaking-spaces enabled still classifies it as whitespace: the
stored exclusion string has only the three characters U+00A0, U+202F and
U+FEFF. -/
theorem c6_counterexample :
    (WhitespaceDetector.new true).is_whitespace '\u2007' = true ∧
      claimedIsWhitespace '\u2007' = false := by
  decide

/-- C6 amended: is_whitespace holds iff the character is Unicode whitespace
and not excluded, where the excluded set is exactly the three code points
U+00A0, U+202F and U+FEFF when preserve-non-breaking-spaces is enabled and
empty otherwise (the constructor takes no other flag, so no linebreak
exclusion exists in this version). -/
theorem c6_is_whitespace_characterisation :
    ∀ (keep : Bool) (c : Char),
      (WhitespaceDetector.new keep).is_whitespace c =
        (rustIsWhitespace c && !(keep && nbspChars.contains c)) := by
  intro keep c
  cases keep <;>
    simp [WhitespaceDetector.new, WhitespaceDetector.is_whitespace]

/-- C8: the greedy word wrap on the given sentence with sentence index 0,
width 11 and a two-space indent produces exactly the claimed lines; a word
joins the current line only when the tracked line length plus one plus the
word length stays within the width, lengths counted in characters. -/
theorem c8_greedy_wrap_example :
    wrap_long_line_and_collapse_inline_whitespace
        ("this sentence is not that long but will be wrapped".toList) 0 (some 11)
        ("  ".toList) WhitespaceDetector.default
      = ["this".toList, "  sentence".toList, "  is not".toList, "  that long".toList,
          "  but will".toList, "  be".toList, "  wrapped".toList] := by
  decide

/-- After a run of whitespace has been entered (flag true), the produced text
is empty or starts with a non-whitespace character. -/
theorem mergeAllWhitespaceAux_true_head (d : WhitespaceDetector) (cs : List Char) :
    mergeAllWhitespaceAux d true cs = [] ∨
      ∃ t ts, mergeAllWhitespaceAux d true cs = t :: ts ∧ d.is_whitespace t = false := by
  induction cs with
  | nil => exact Or.inl rfl
  | cons c cs ih =>
    by_cases h : d.is_whitespace c = true
    · simpa [mergeAllWhitespaceAux, h] using ih
    · refine Or.inr ⟨c, mergeAllWhitespaceAux d false cs, ?_, ?_⟩
      · simp [mergeAllWhitespaceAux, h]
      · simpa using h

/-- Re-running the whitespace merge (with a fresh flag) over already merged
text changes nothing, whatever the initial flag of the first run was. -/
theorem mergeAllWhitespaceAux_idem (d : WhitespaceDetector) (cs : List Char) :
    ∀ b : Bool, mergeAllWhitespaceAux d false (mergeAllWhitespaceAux d b cs)
      = mergeAllWhitespaceAux d b cs := by
  induction cs with
  | nil => intro b; rfl
  | cons c cs ih =>
    intro b
    by_cases hc : d.is_whitespace c = true
    · cases b with
      | true =>
        rw [show mergeAllWhitespaceAux d true (c :: cs) = mergeAllWhitespaceAux d true cs
          from by simp [mergeAllWhitespaceAux, hc]]
        exact ih true
      | false =>
        rw [show mergeAllWhitespaceAux d false (c :: cs)
            = ' ' :: mergeAllWhitespaceAux d true cs
          from by simp [mergeAllWhitespaceAux, hc]]
        by_cases hsp : d.is_whitespace ' ' = true
        · rw [show mergeAllWhitespaceAux d false (' ' :: mergeAllWhitespaceAux d true cs)
              = ' ' :: mergeAllWhitespaceAux d true (mergeAllWhitespaceAux d true cs)
            from by simp [mergeAllWhitespaceAux, hsp]]
          congr 1
          rcases mergeAllWhitespaceAux_true_head d cs with h0 | ⟨t, ts, ht, hws⟩
          · rw [h0]; rfl
          · have h1 := ih true
            rw [ht] at h1
            rw [show mergeAllWhitespaceAux d false (t :: ts)
                = t :: mergeAllWhitespaceAux d false ts
              from by simp [mergeAllWhitespaceAux, hws]] at h1
            have htail : mergeAllWhitespaceAux d false ts = ts := by
              injection h1
            rw [ht]
            rw [show mergeAllWhitespaceAux d true (t :: ts)
                = t :: mergeAllWhitespaceAux d false ts
              from by simp [mergeAllWhitespaceAux, hws]]
            rw [htail]
        · rw [show mergeAllWhitespaceAux d false (' ' :: mergeAllWhitespaceAux d true cs)
              = ' ' :: mergeAllWhitespaceAux d false (mergeAllWhitespaceAux d true cs)
            from by simp [mergeAllWhitespaceAux, hsp]]
          rw [ih true]
    · have hstep : ∀ (b2 : Bool) (tl : List Char), mergeAllWhitespaceAux d b2 (c :: tl)
          = c :: mergeAllWhitespaceAux d false tl := by
        intro b2 tl; cases b2 <;> simp [mergeAllWhitespaceAux, hc]
      rw [hstep b cs, hstep false (mergeAllWhitespaceAux d false cs), ih false]

/-- C9: idempotence of the whitespace normalisation of the Line Breaker:
merging all whitespace twice gives the same result as merging it once, for
every string and every WhitespaceDetector. -/
theorem c9_merge_all_whitespace_idempotent :
    ∀ (s : List Char) (d : WhitespaceDetector),
      merge_all_whitespace (merge_all_whitespace s d) d = merge_all_whitespace s d :=
  fun s d => mergeAllWhitespaceAux_idem d s false

/-- C4: for every suppression set, text and index within the text, the
suppressed-word query holds iff some stored entry (word, disp) with disp at
most idx passes the word-boundary check (idx equals disp, or the character
before the match is not alphanumeric) and the characters of the slice ending
at idx, each expanded by lowercasing unless case is preserved, agree with the
word characters at every zipped position. Stated for every choice of the
alphanumeric and lowercase tables. -/
theorem c4_ends_with_suppressed_word_characterisation :
    ∀ (isAlnum : Char → Bool) (lowerChar : Char → List Char) (k : KeepWords)
      (text : List Char) (idx : Nat), idx < text.length →
      (k.ends_with_word isAlnum lowerChar text idx = true ↔
        ∃ e ∈ k.data, e.2 ≤ idx ∧
          (idx = e.2 ∨ isAlnum (text.getD (idx - e.2 - 1) ' ') = false) ∧
          ∀ p ∈ ((((text.drop (idx - e.2)).take (e.2 + 1)).map
              (fun el => if k.preserve_case then [el] else lowerChar el)).join.zip e.1),
            p.1 = p.2) := by
  intro isAlnum lowerChar k text idx h
  unfold KeepWords.ends_with_word
  rw [if_pos h]
  simp only [List.any_eq_true, List.mem_filter, keepWordMatches, Bool.and_eq_true,
    Bool.or_eq_true, beq_iff_eq, Bool.not_eq_true', List.all_eq_true, decide_eq_true_eq]
  constructor
  · rintro ⟨e, ⟨he, hle⟩, hb, hz⟩
    exact ⟨e, he, hle, hb, fun p hp => by simpa using hz p hp⟩
  · rintro ⟨e, he, hle, hb, hz⟩
    exact ⟨e, ⟨he, hle⟩, hb, fun p hp => by simpa using hz p hp⟩

/-- C4 witness: the characterisation applied to the suppression set holding
only the entry for g. with displacement 1, on the text e.g. at index 3. -/
theorem c4_witness :
    KeepWords.ends_with_word asciiAlnum asciiLower
      ⟨[(['g', '.'], 1)], false⟩ ("e.g.".toList) 3 = true := by
  refine (c4_ends_with_suppressed_word_characterisation asciiAlnum asciiLower
    ⟨[(['g', '.'], 1)], false⟩ ("e.g.".toList) 3 (by decide)).mpr ?_
  exact ⟨(['g', '.'], 1), by simp, by decide, by decide, by decide⟩

/-- The checked any agrees with the boolean any when every predicate
application is panic-free. -/
theorem anyChecked_eq_any {α : Type} (l : List α) (f : α → Option Bool) (g : α → Bool)
    (h : ∀ a ∈ l, f a = some (g a)) : anyChecked l f = some (l.any g) := by
  induction l with
  | nil => rfl
  | cons a as ih =>
    have ha := h a (by simp)
    cases hg : g a with
    | true => simp [anyChecked, ha, hg]
    | false =>
      simp [anyChecked, ha, hg]
      exact ih (fun b hb => h b (by simp [hb]))

/-- Every token produced by whitespace splitting is non-empty. -/
theorem splitWsAux_ne_nil (p : Char → Bool) :
    ∀ (l cur w : List Char), w ∈ splitWsAux p cur l → w ≠ [] := by
  intro l
  induction l with
  | nil =>
    intro cur w hw
    by_cases hc : cur.isEmpty
    · simp [splitWsAux, hc] at hw
    · simp [splitWsAux, hc] at hw
      subst hw
      simp only [ne_eq, List.reverse_eq_nil_iff]
      simpa [List.isEmpty_iff] using hc
  | cons c cs ih =>
    intro cur w hw
    by_cases hp : p c = true
    · by_cases hc : cur.isEmpty
      · exact ih [] w (by simpa [splitWsAux, hp, hc] using hw)
      · rw [show splitWsAux p cur (c :: cs) = cur.reverse :: splitWsAux p [] cs
          from by simp [splitWsAux, hp, hc]] at hw
        rcases List.mem_cons.mp hw with h1 | h2
        · subst h1
          simp only [ne_eq, List.reverse_eq_nil_iff]
          simpa [List.isEmpty_iff] using hc
        · exact ih [] w h2
    · exact ih (c :: cur) w (by simpa [splitWsAux, hp] using hw)

/-- For an entry passing the displacement filter and an index inside the
text, the bounds-checked match test never panics and agrees with the direct
one. -/
theorem keepWordMatchesChecked_eq (isAlnum : Char → Bool) (lowerChar : Char → List Char)
    (preserve : Bool) (text : List Char) (idx : Nat) (e : List Char × Nat)
    (hle : e.2 ≤ idx) (hlt : idx < text.length) :
    keepWordMatchesChecked isAlnum lowerChar preserve text idx e
      = some (keepWordMatches isAlnum lowerChar preserve text idx e) := by
  have hslice : idx + 1 ≤ text.length := Nat.succ_le_of_lt hlt
  unfold keepWordMatchesChecked keepWordMatches
  by_cases he : idx = e.2
  · simp [he, show e.2 + 1 ≤ text.length from he ▸ hslice]
  · have hlt2 : e.2 < idx := Nat.lt_of_le_of_ne hle (fun h => he h.symm)
    have hidx : idx - e.2 - 1 < text.length := by omega
    obtain ⟨c, hc⟩ : ∃ c, text[idx - e.2 - 1]? = some c := by
      rw [List.getElem?_eq_getElem hidx]
      exact ⟨_, rfl⟩
    by_cases ha : isAlnum c = true <;>
      simp [he, ha, hc, hslice]

/-- C10: totality of the suppressed-word query. Every word stored by the
constructor is non-empty; the query with every index and slice access
bounds-checked never reaches an out-of-bounds access and agrees with the
direct embedding, for every suppression set (so the code never panics); and
every index at or past the end of the text yields false. -/
theorem c10_query_safety :
    (∀ (lowerChar : Char → List Char) (words ignores : List Char) (preserve : Bool),
        (KeepWords.new lowerChar words ignores preserve).data.all
          (fun e => !e.1.isEmpty) = true)
    ∧ (∀ (isAlnum : Char → Bool) (lowerChar : Char → List Char) (k : KeepWords)
        (text : List Char) (idx : Nat),
        ends_with_word_checked isAlnum lowerChar k text idx
          = some (k.ends_with_word isAlnum lowerChar text idx))
    ∧ (∀ (isAlnum : Char → Bool) (lowerChar : Char → List Char) (k : KeepWords)
        (text : List Char) (idx : Nat), text.length ≤ idx →
        k.ends_with_word isAlnum lowerChar text idx = false) := by
  refine ⟨?_, ?_, ?_⟩
  · intro lowerChar words ignores preserve
    rw [List.all_eq_true]
    intro e he
    simp only [KeepWords.new, List.mem_map] at he
    obtain ⟨w, hw, rfl⟩ := he
    have hw1 := (List.mem_filter.mp hw).1
    have hne := splitWsAux_ne_nil rustIsWhitespace _ [] w hw1
    simpa [List.isEmpty_iff] using hne
  · intro isAlnum lowerChar k text idx
    unfold ends_with_word_checked KeepWords.ends_with_word
    by_cases h : idx < text.length
    · rw [if_pos h, if_pos h]
      apply anyChecked_eq_any
      intro e he
      have hle : e.2 ≤ idx := by simpa using (List.mem_filter.mp he).2
      exact keepWordMatchesChecked_eq isAlnum lowerChar k.preserve_case text idx e hle h
    · rw [if_neg h, if_neg h]
  · intro isAlnum lowerChar k text idx h
    unfold KeepWords.ends_with_word
    rw [if_neg (by omega)]

/-- C10 witness: the query at an index past the end of a two-character text
returns false. -/
theorem c10_witness :
    KeepWords.ends_with_word asciiAlnum asciiLower ⟨[(['a'], 0)], false⟩
      ("ab".toList) 5 = false :=
  c10_query_safety.2.2 asciiAlnum asciiLower ⟨[(['a'], 0)], false⟩
    ("ab".toList) 5 (by decide)

/-- C3: behaviour of merge_ranges. Every range it returns has more than one
character (claim part c); and on a start-sorted pair of ranges it drops the
second range when it is fully contained in the first (part a), merges the two
into one contiguous range exactly when every position of the gap between them
is in the whitespace map and the gap holds at most one linebreak (part b,
which keeps blank-line-separated paragraphs apart), and otherwise keeps both,
the final length filter applying in each case. -/
theorem c3_merge_ranges_characterisation :
    (∀ (ranges : List CharRange) (ws : Nat → Option Char) (r : CharRange),
        r ∈ merge_ranges ranges ws → 1 < r.len)
    ∧ (∀ (r1 r2 : CharRange) (ws : Nat → Option Char),
        r1.start ≤ r2.start → r2.stop ≤ r1.stop →
        merge_ranges [r1, r2] ws = [r1].filter (fun el => decide (1 < el.len)))
    ∧ (∀ (r1 r2 : CharRange) (ws : Nat → Option Char),
        r1.start ≤ r2.start → r1.stop < r2.stop →
        (∀ i ∈ gapPositions r1.stop r2.start, (ws i).isSome = true) →
        ((gapPositions r1.stop r2.start).filter (fun i => ws i == some '\n')).length ≤ 1 →
        merge_ranges [r1, r2] ws
          = [CharRange.mk r1.start r2.stop].filter (fun el => decide (1 < el.len)))
    ∧ (∀ (r1 r2 : CharRange) (ws : Nat → Option Char),
        r1.start ≤ r2.start → r1.stop < r2.stop →
        ¬((∀ i ∈ gapPositions r1.stop r2.start, (ws i).isSome = true) ∧
          ((gapPositions r1.stop r2.start).filter
            (fun i => ws i == some '\n')).length ≤ 1) →
        merge_ranges [r1, r2] ws = [r1, r2].filter (fun el => decide (1 < el.len))) := by
  refine ⟨?_, ?_, ?_, ?_⟩
  · intro ranges ws r hr
    cases ranges with
    | nil => simp [merge_ranges] at hr
    | cons a as =>
      have h2 : r ∈ mergeRangesLoop ws a as ∧ 1 < r.len := by
        simpa [merge_ranges] using hr
      exact h2.2
  · intro r1 r2 ws h1 h2
    have hcont : (decide (r1.start ≤ r2.start) && decide (r2.stop ≤ r1.stop)) = true := by
      simp [h1, h2]
    simp only [merge_ranges, mergeRangesLoop, hcont, if_true]
  · intro r1 r2 ws h1 h2 hws hlb
    have hcont : (decide (r1.start ≤ r2.start) && decide (r2.stop ≤ r1.stop)) = false := by
      simp; omega
    have hall : (gapPositions r1.stop r2.start).all (fun el => (ws el).isSome) = true :=
      List.all_eq_true.mpr (fun i hi => hws i hi)
    have hone : decide (((gapPositions r1.stop r2.start).filter
        (fun i => ws i == some '\n')).length ≤ 1) = true := by
      simpa using hlb
    simp only [merge_ranges, mergeRangesLoop, hcont, hall, hone, Bool.and_self,
      if_false, if_true, Bool.false_eq_true]
  · intro r1 r2 ws h1 h2 hng
    have hcont : (decide (r1.start ≤ r2.start) && decide (r2.stop ≤ r1.stop)) = false := by
      simp; omega
    have hgap : ((gapPositions r1.stop r2.start).all (fun el => (ws el).isSome) &&
        decide (((gapPositions r1.stop r2.start).filter
          (fun i => ws i == some '\n')).length ≤ 1)) = false := by
      rcases Decidable.not_and_iff_or_not.mp hng with h | h
      · have hfalse : (gapPositions r1.stop r2.start).all (fun el => (ws el).isSome) = false := by
          by_contra hb
          have htrue := Bool.eq_true_of_ne_false hb
          exact h (fun i hi => List.all_eq_true.mp htrue i hi)
        simp [hfalse]
      · simp [h]
    simp only [merge_ranges, mergeRangesLoop, hcont, hgap, if_false, Bool.false_eq_true]

/-- C3 witness: two ranges separated by one space merge into one contiguous
range, and two ranges separated by a blank line (two linebreaks) stay
separate. -/
theorem c3_witness :
    merge_ranges [⟨0, 5⟩, ⟨6, 9⟩] (fun i => if i == 5 then some ' ' else none)
        = [⟨0, 9⟩] ∧
      merge_ranges [⟨0, 5⟩, ⟨7, 12⟩]
          (fun i => if 5 ≤ i && i < 7 then some '\n' else none)
        = [⟨0, 5⟩, ⟨7, 12⟩] := by
  constructor
  · have h := c3_merge_ranges_characterisation.2.2.1 ⟨0, 5⟩ ⟨6, 9⟩
      (fun i => if i == 5 then some ' ' else none) (by decide) (by decide)
      (by decide) (by decide)
    exact h.trans (by decide)
  · have h := c3_merge_ranges_characterisation.2.2.2 ⟨0, 5⟩ ⟨7, 12⟩
      (fun i => if 5 ≤ i && i < 7 then some '\n' else none) (by decide) (by decide)
      (by decide)
    exact h.trans (by decide)

/-- The filled ranges form a chain of non-empty adjacent ranges from the
running lower bound to the end of the document, provided the input ranges are
sorted, non-overlapping and within the document. -/
theorem fillLoop_covers (lines : List CharRange) (len : Nat) :
    ∀ (ranges : List CharRange) (lo : Nat), sortedWithin lo len ranges = true →
      covers lo ((fillLoop lines lo (ranges ++ [⟨len, len⟩])).filter
        (fun el => !el.range.is_empty)) len = true := by
  intro ranges
  induction ranges with
  | nil =>
    intro lo h
    have hlo : lo ≤ len := by simpa [sortedWithin] using h
    rcases lt_or_eq_of_le hlo with hlt | heq
    · simp [fillLoop, List.filter_cons, CharRange.is_empty, covers, hlt]
    · subst heq
      simp [fillLoop, List.filter_cons, CharRange.is_empty, covers]
  | cons r rs ih =>
    intro lo h
    have h' : (lo ≤ r.start ∧ r.start ≤ r.stop) ∧ sortedWithin r.stop len rs = true := by
      simpa [sortedWithin, Bool.and_eq_true, decide_eq_true_eq, and_assoc] using h
    obtain ⟨⟨h1, h2⟩, h3⟩ := h'
    have ihr := ih r.stop h3
    by_cases hv : lo < r.start
    · by_cases hw : r.start < r.stop
      · simpa [fillLoop, List.filter_cons, CharRange.is_empty, covers, hv, hw] using ihr
      · have heq : r.start = r.stop := Nat.le_antisymm h2 (Nat.le_of_not_lt hw)
        simpa [fillLoop, List.filter_cons, CharRange.is_empty, covers, hv, hw, ← heq]
          using ihr
    · have hveq : lo = r.start := Nat.le_antisymm h1 (Nat.le_of_not_lt hv)
      by_cases hw : r.start < r.stop
      · simpa [fillLoop, List.filter_cons, CharRange.is_empty, covers, hv, hw, hveq]
          using ihr
      · have heq : r.start = r.stop := Nat.le_antisymm h2 (Nat.le_of_not_lt hw)
        simpa [fillLoop, List.filter_cons, CharRange.is_empty, covers, hv, hw, hveq, ← heq]
          using ihr

/-- The non-verbatim output ranges of the filler are exactly the non-empty
input ranges, each tagged with its start offset minus the start offset of the
line containing it. -/
theorem fillLoop_wrappable (lines : List CharRange) (len : Nat) :
    ∀ (ranges : List CharRange) (lo : Nat),
      ((fillLoop lines lo (ranges ++ [⟨len, len⟩])).filter
          (fun el => !el.range.is_empty)).filter (fun el => !el.verbatim)
        = (ranges.filter (fun r => !r.is_empty)).map
            (fun r => ⟨r.start - ((find_line_start r.start lines).getD r.start),
              r, false⟩) := by
  intro ranges
  induction ranges with
  | nil =>
    intro lo
    by_cases hl : lo < len <;>
      simp [fillLoop, List.filter_cons, CharRange.is_empty, hl]
  | cons r rs ih =>
    intro lo
    have ih' := ih r.stop
    simp only [CharRange.is_empty, Bool.not_not, List.filter_filter] at ih'
    by_cases hv : lo < r.start <;> by_cases hw : r.start < r.stop <;>
      simp [fillLoop, List.filter_cons, CharRange.is_empty, hv, hw, ih']

/-- C7: for every text and every start-sorted, non-overlapping list of
in-bounds wrappable ranges, the filled ranges partition the document: they
are in order, adjoin one another from position 0 to the document end, and
exactly the zero-length synthesized ranges are removed; and the wrappable
outputs are exactly the non-empty input ranges tagged with indent equal to
the range start minus the start of the line containing it. -/
theorem c7_fill_markdown_ranges_partition :
    ∀ (text : List Char) (ranges : List CharRange),
      sortedWithin 0 text.length ranges = true →
      covers 0 (fill_markdown_ranges ranges text) text.length = true ∧
        (fill_markdown_ranges ranges text).filter (fun el => !el.verbatim)
          = (ranges.filter (fun r => !r.is_empty)).map
              (fun r =>
                ⟨r.start - ((find_line_start r.start (line_ranges text)).getD r.start),
                  r, false⟩) := by
  intro text ranges h
  exact ⟨fillLoop_covers (line_ranges text) text.length ranges 0 h,
    fillLoop_wrappable (line_ranges text) text.length ranges 0⟩

/-- C7 witness: the partition property on a concrete two-line document with
two wrappable ranges. -/
theorem c7_witness :
    covers 0 (fill_markdown_ranges [⟨0, 2⟩, ⟨3, 6⟩] ("ab\ncde".toList)) 6 = true := by
  have h := c7_fill_markdown_ranges_partition ("ab\ncde".toList) [⟨0, 2⟩, ⟨3, 6⟩]
    (by decide)
  exact h.1

end Mdslw
